import Mathlib

/-!
Shallow embedding of the `ai_processor` token-budget accounting and
sequential chunk-processing engine (`src/ai_processor/ai_processor.py`),
together with theorems settling the specification claims.

Text is modelled as `List Char`.  The character classes model Python's
`re` classes `\w` and `\s` (Unicode flag) faithfully on the ASCII range.
-/

namespace AIProc

/-- Python `\w` on the ASCII range: letters, digits and underscore. -/
def isWordChar (c : Char) : Bool := c.isAlphanum || c = '_'

/-- Python `\s` on the ASCII range: space, tab, newline, carriage return,
vertical tab, form feed. -/
def isSpaceChar (c : Char) : Bool :=
  c = ' ' || c = '\t' || c = '\n' || c = '\r' || c = '\x0b' || c = '\x0c'

theorem dropWhile_length_le {α : Type} (p : α → Bool) :
    ∀ l : List α, (l.dropWhile p).length ≤ l.length := by
  intro l
  induction l with
  | nil => simp
  | cons c cs ih =>
    by_cases h : p c
    · simpa [List.dropWhile_cons, h] using Nat.le_succ_of_le ih
    · simp [List.dropWhile_cons, h]

/-- The token scan of `_count_tokens`: `re.findall(r'\w+|[^\w\s]', text)`.
Maximal runs of word characters are one token; every other non-space
character is a single-character token; space characters separate tokens. -/
def tokenize : List Char → List (List Char)
  | [] => []
  | c :: cs =>
    if isWordChar c then
      (c :: cs.takeWhile isWordChar) :: tokenize (cs.dropWhile isWordChar)
    else if isSpaceChar c then
      tokenize cs
    else
      [c] :: tokenize cs
termination_by l => l.length
decreasing_by
  · simpa using Nat.lt_succ_of_le (dropWhile_length_le isWordChar cs)
  · simp
  · simp

/-- Cost of one token in `_count_tokens`: `max(1, len(token) // 5)`. -/
def tokenCost (t : List Char) : Nat := max 1 (t.length / 5)

/-- `BaseAIProcessor._count_tokens`. -/
def countTokens (s : List Char) : Nat := ((tokenize s).map tokenCost).sum

/-- Python `str.split()` (no argument): the maximal whitespace-free
non-empty words of a string, in order. -/
def splitWs : List Char → List (List Char)
  | [] => []
  | c :: cs =>
    if isSpaceChar c then
      splitWs cs
    else
      (c :: cs.takeWhile (fun x => !isSpaceChar x)) ::
        splitWs (cs.dropWhile (fun x => !isSpaceChar x))
termination_by l => l.length
decreasing_by
  · simp
  · simpa using Nat.lt_succ_of_le (dropWhile_length_le (fun x => !isSpaceChar x) cs)

/-- Line boundaries of Python `str.splitlines()` on the ASCII range:
newline, carriage return (with `\r\n` counting as a single boundary,
handled in `breakLine`), vertical tab and form feed. -/
def isLineBoundary (c : Char) : Bool :=
  c = '\n' || c = '\r' || c = '\x0b' || c = '\x0c'

/-- Split off the first line: returns the content before the first line
boundary and the remainder after it (`\r\n` consumed as one boundary). -/
def breakLine : List Char → List Char × List Char
  | [] => ([], [])
  | c :: cs =>
    if c = '\r' then
      match cs with
      | [] => ([], [])
      | d :: cs2 => if d = '\n' then ([], cs2) else ([], d :: cs2)
    else if isLineBoundary c then
      ([], cs)
    else
      let p := breakLine cs
      (c :: p.1, p.2)

theorem breakLine_snd_length_lt :
    ∀ s : List Char, s ≠ [] → (breakLine s).2.length < s.length := by
  intro s
  induction s with
  | nil => intro h; exact absurd rfl h
  | cons c cs ih =>
    intro _
    by_cases hr : c = '\r'
    · cases cs with
      | nil => simp [breakLine, hr]
      | cons d ds =>
        by_cases hd : d = '\n' <;> (simp [breakLine, hr, hd]; try omega)
    · by_cases hb : isLineBoundary c
      · simp [breakLine, hr, hb]
      · cases cs with
        | nil => simp [breakLine, hr, hb]
        | cons d ds =>
          have hlt := ih (by simp)
          simp only [breakLine, hr, hb, if_false]
          simpa using Nat.lt_succ_of_lt hlt

/-- Python `str.splitlines()` (restricted to the ASCII boundary set). -/
def splitlines : List Char → List (List Char)
  | [] => []
  | c :: cs =>
    (breakLine (c :: cs)).1 :: splitlines (breakLine (c :: cs)).2
termination_by s => s.length
decreasing_by exact breakLine_snd_length_lt (c :: cs) (by simp)

/-- `' '.join(...)` on a list of strings. -/
def joinSp : List (List Char) → List Char
  | [] => []
  | [w] => w
  | w :: v :: ws => w ++ ' ' :: joinSp (v :: ws)

/-- Whitespace normalisation: collapse every maximal whitespace run to a
single space and trim; realised as splitting into words and rejoining. -/
def normWs (s : List Char) : List Char := joinSp (splitWs s)

/-- A binary64 (Python float) value, represented exactly as a dyadic
rational `m * 2^e`.  The caller's `response_ratio` arrives as such a
value; modelled over the normal range (no overflow or subnormal
handling, which the budget computation never reaches for the spec's
configurations). -/
structure Dyadic where
  m : Int
  e : Int
deriving Repr, DecidableEq

/-- The exact rational value of a binary64 number. -/
def Dyadic.toRat (x : Dyadic) : ℚ := (x.m : ℚ) * (2 : ℚ) ^ x.e

/-- Bit length of a natural number (fuel-based so that it reduces in the
kernel): `bitLen n = ⌊log2 n⌋ + 1` for `n ≥ 1`, and `bitLen 0 = 0`. -/
def bitLenAux : Nat → Nat → Nat
  | 0, _ => 0
  | f + 1, n => if n = 0 then 0 else bitLenAux f (n / 2) + 1

def bitLen (n : Nat) : Nat := bitLenAux n n

/-- Round `n / 2^s` to the nearest integer, ties to even. -/
def rheNat (n : Nat) (s : Nat) : Nat :=
  if s = 0 then n
  else
    let q := n / 2 ^ s
    let r := n % 2 ^ s
    let half := 2 ^ (s - 1)
    if r < half then q
    else if half < r then q + 1
    else if q % 2 = 0 then q else q + 1

/-- IEEE-754 round-to-nearest-even onto a 53-bit mantissa: the rounding
step binary64 arithmetic applies to every exact intermediate result. -/
def roundDyadic (x : Dyadic) : Dyadic :=
  let a := x.m.natAbs
  if a < 2 ^ 53 then x
  else
    let s := bitLen a - 53
    let a2 := rheNat a s
    ⟨if x.m < 0 then -(a2 : Int) else (a2 : Int), x.e + s⟩

/-- The exact difference of two dyadic values (mantissas aligned to the
smaller exponent). -/
def alignSub (a b : Dyadic) : Dyadic :=
  let e := min a.e b.e
  ⟨a.m * 2 ^ (a.e - e).toNat - b.m * 2 ^ (b.e - e).toNat, e⟩

/-- Binary64 subtraction: exact difference, then rounding. -/
def fsub (a b : Dyadic) : Dyadic := roundDyadic (alignSub a b)

/-- Binary64 multiplication: exact product, then rounding. -/
def fmul (a b : Dyadic) : Dyadic := roundDyadic ⟨a.m * b.m, a.e + b.e⟩

/-- Python's implicit `int → float` conversion (rounds when the integer
needs more than 53 bits). -/
def intToDouble (n : Int) : Dyadic := roundDyadic ⟨n, 0⟩

/-- Binary64 comparison `a < b` (floats compare by exact value). -/
def dltB (a b : Dyadic) : Bool :=
  let e := min a.e b.e
  decide (a.m * 2 ^ (a.e - e).toNat < b.m * 2 ^ (b.e - e).toNat)

/-- Python `int()` on a float: truncation toward zero. -/
def pyInt (x : Dyadic) : Int :=
  if 0 ≤ x.e then x.m * 2 ^ x.e.toNat
  else
    let d := 2 ^ (-x.e).toNat
    if 0 ≤ x.m then ((x.m.toNat / d : Nat) : Int)
    else -(((-x.m).toNat / d : Nat) : Int)

/-- `BaseAIProcessor._calculate_chunk_size`: the effective chunk budget
derived from `max_tokens` and the optional `response_ratio`, a Python
float; `int(self.max_tokens * (1 - self.response_ratio))` is evaluated in
binary64 arithmetic (`1 - ratio`, then `max_tokens * …`, each rounded)
and truncated toward zero. -/
def calculateChunkSize (maxTokens : Int) (ratio : Option Dyadic) : Except String Int :=
  match ratio with
  | none => .ok maxTokens
  | some r =>
    if dltB ⟨0, 0⟩ r && dltB r ⟨1, 0⟩ then
      .ok (pyInt (fmul (intToDouble maxTokens) (fsub ⟨1, 0⟩ r)))
    else .error "response_ratio must be between 0 and 1."

/-- The binary64 value produced by the Python literal `0.3`
(`5404319552844595 / 2^54`; see `dbl03_correctly_rounded`). -/
def dbl03 : Dyadic := ⟨5404319552844595, -54⟩

/-- The binary64 value produced by the Python literal `0.2`
(`3602879701896397 / 2^54`; see `dbl02_correctly_rounded`). -/
def dbl02 : Dyadic := ⟨3602879701896397, -54⟩

/-- The binary64 value produced by the Python literal `0.8`
(`3602879701896397 / 2^52`; see `dbl08_correctly_rounded`). -/
def dbl08 : Dyadic := ⟨3602879701896397, -52⟩

/-- `BaseAIProcessor._calculate_reserved_tokens`. -/
def calculateReservedTokens (maxTokens : Int) (prompt chunk : List Char)
    (lastChunkTokenCount : Int) : Except String Int :=
  let promptTokens : Int := countTokens prompt
  let chunkTokens : Int := countTokens chunk
  let totalPromptTokens := promptTokens + chunkTokens + lastChunkTokenCount
  let reservedTokens := maxTokens - totalPromptTokens
  if reservedTokens ≤ 0 then .error "Not enough tokens available for the response."
  else .ok reservedTokens

/-- The backward word walk of `_extract_last_chunk_end`: accumulate words
from the reversed word list while the running token count stays within
the bound, stopping at the first word that would exceed it. -/
def tailTake (bound : Int) : List (List Char) → Int → List (List Char)
  | [], _ => []
  | w :: ws, acc =>
    let wc : Int := countTokens w
    if acc + wc > bound then []
    else w :: tailTake bound ws (acc + wc)

/-- `BaseAIProcessor._extract_last_chunk_end` (the source's
`last_chunk_token_count` parameter, default 50, is the bound). -/
def extractLastChunkEnd (responseText : List Char) (bound : Int) : List Char :=
  joinSp (tailTake bound (splitWs responseText).reverse 0).reverse

/-- Mutable loop state of `_split_into_chunks`: closed chunks, the items
(lines or words) of the pending chunk, and the pending token count. -/
structure SplitState where
  chunks : List (List Char)
  current : List (List Char)
  count : Nat

/-- Body of the word loop in `_split_into_chunks` (oversized-line case). -/
def processWord (eff : Nat) (st : SplitState) (w : List Char) : SplitState :=
  let wc := countTokens w
  if st.count + wc > eff then ⟨st.chunks ++ [joinSp st.current], [w], wc⟩
  else ⟨st.chunks, st.current ++ [w], st.count + wc⟩

/-- Body of the line loop in `_split_into_chunks`. -/
def processLine (eff : Nat) (st : SplitState) (line : List Char) : SplitState :=
  let lc := countTokens line
  if lc > eff then (splitWs line).foldl (processWord eff) st
  else if st.count + lc > eff then ⟨st.chunks ++ [joinSp st.current], [line], lc⟩
  else ⟨st.chunks, st.current ++ [line], st.count + lc⟩

/-- The effective budget computed at the top of `_split_into_chunks`. -/
def effectiveBudget (chunkSize : Int) (lastChunkEnd : List Char)
    (includeLastChunk : Bool) : Int :=
  if includeLastChunk then chunkSize - countTokens lastChunkEnd else chunkSize

/-- `BaseAIProcessor._split_into_chunks`. -/
def splitIntoChunks (chunkSize : Int) (context lastChunkEnd : List Char)
    (includeLastChunk : Bool) : Except String (List (List Char)) :=
  let eff := effectiveBudget chunkSize lastChunkEnd includeLastChunk
  if eff ≤ 0 then .error "Effective chunk size is too small to process further."
  else
    let st := (splitlines context).foldl (processLine eff.toNat) ⟨[], [], 0⟩
    .ok (if st.current.isEmpty then st.chunks else st.chunks ++ [joinSp st.current])

/-- The `prompts` dictionary of `ChatProcessor.process`. -/
structure Prompts where
  initial : List Char
  followUpTemplate : List Char

/-- The `options` dictionary of `ChatProcessor.process`.  The caller may
supply both keys; which of them the code actually reads is a theorem. -/
structure ChatOptions where
  includeLastChunk : Bool
  lastChunkTokenCount : Int

/-- One element of the `results` list built by `ChatProcessor.process`. -/
structure ChatResult where
  index : Nat
  inputText : List Char
  responseText : List Char
deriving Repr, DecidableEq

/-- The dictionary returned by `ChatProcessor.process` on success. -/
structure ChatOutcome where
  status : String
  chunks : List ChatResult
deriving Repr, DecidableEq

/-- The `{last_chunk_end}` placeholder of the follow-up template. -/
def lceHolder : List Char := '{' :: ("last_chunk_end".toList ++ ['}'])

/-- Python `str.format(last_chunk_end=tail)`: replace every occurrence of
the placeholder by the tail. -/
def substAll : List Char → List Char → List Char
  | [], _ => []
  | c :: cs, repl =>
    if (c :: cs).take lceHolder.length = lceHolder then
      repl ++ substAll ((c :: cs).drop lceHolder.length) repl
    else
      c :: substAll cs repl
termination_by tpl => tpl.length
decreasing_by
  · have : lceHolder.length = 16 := by decide
    simp only [this, List.length_drop, List.length_cons]
    omega
  · simp

/-- The chunk loop of `ChatProcessor.process`.  The external model call is
abstracted as a pure oracle `model index prompt chunk = response_text`
(the fate of the HTTP payload itself is modelled by `extractChatContent`).
A raised `ValueError` from the reservation check aborts the whole loop,
returning no accumulated results. -/
def chatLoop (maxTokens : Int) (model : Nat → List Char → List Char → List Char)
    (prompts : Prompts) (includeLastChunk : Bool) :
    List (List Char) → Nat → List Char → Int → List ChatResult →
    Except String (List ChatResult)
  | [], _, _, _, acc => .ok acc
  | chunk :: rest, index, lastChunkEnd, lastCount, acc =>
    let prompt := if index = 0 then prompts.initial
                  else substAll prompts.followUpTemplate lastChunkEnd
    match calculateReservedTokens maxTokens prompt chunk lastCount with
    | .error e => .error e
    | .ok _ =>
      let responseText := model index prompt chunk
      let acc2 := acc ++ [⟨index + 1, chunk, responseText⟩]
      if includeLastChunk then
        let tail := extractLastChunkEnd responseText 50
        chatLoop maxTokens model prompts includeLastChunk rest (index + 1)
          tail (countTokens tail) acc2
      else
        chatLoop maxTokens model prompts includeLastChunk rest (index + 1)
          lastChunkEnd lastCount acc2

/-- `options.get("include_last_chunk", False) if options else False`. -/
def optInclude : Option ChatOptions → Bool
  | some o => o.includeLastChunk
  | none => false

/-- `ChatProcessor.process`. -/
def chatProcess (maxTokens chunkSize : Int)
    (model : Nat → List Char → List Char → List Char)
    (context : List Char) (prompts : Prompts) (options : Option ChatOptions) :
    Except String ChatOutcome :=
  let includeLastChunk := optInclude options
  match splitIntoChunks chunkSize context [] includeLastChunk with
  | .error e => .error e
  | .ok chunks =>
    match chatLoop maxTokens model prompts includeLastChunk chunks 0 [] 0 [] with
    | .error e => .error e
    | .ok results => .ok ⟨"success", results⟩

/-- The continuity tail held by the loop just before iteration `i`
(0-based), as a function of the chunk list and the model oracle.  It is
defined independently of the reservation checks, mirroring exactly the
tail updates of `chatLoop`. -/
def tailBefore (model : Nat → List Char → List Char → List Char)
    (prompts : Prompts) (includeLastChunk : Bool)
    (chunks : List (List Char)) : Nat → List Char
  | 0 => []
  | i + 1 =>
    if includeLastChunk then
      let t := tailBefore model prompts includeLastChunk chunks i
      match chunks.get? i with
      | some chunk =>
        let prompt := if i = 0 then prompts.initial
                      else substAll prompts.followUpTemplate t
        extractLastChunkEnd (model i prompt chunk) 50
      | none => t
    else []

/-- The prompt used at iteration `i` of the chat loop. -/
def promptBefore (model : Nat → List Char → List Char → List Char)
    (prompts : Prompts) (includeLastChunk : Bool)
    (chunks : List (List Char)) (i : Nat) : List Char :=
  if i = 0 then prompts.initial
  else substAll prompts.followUpTemplate (tailBefore model prompts includeLastChunk chunks i)

/-- The reservation quantity computed at iteration `i` of the chat loop:
`max_tokens − (prompt + chunk + carried-tail tokens)`. -/
def reservedBefore (maxTokens : Int)
    (model : Nat → List Char → List Char → List Char)
    (prompts : Prompts) (includeLastChunk : Bool)
    (chunks : List (List Char)) (i : Nat) : Int :=
  maxTokens - ((countTokens (promptBefore model prompts includeLastChunk chunks i) : Int)
    + countTokens (chunks.getD i []) + countTokens (tailBefore model prompts includeLastChunk chunks i))

/-- One element of the `embeddings` list built by
`EmbeddingsProcessor.process`; the embedding vector type is abstract. -/
structure EmbResult (α : Type) where
  index : Nat
  message : List Char
  embedding : α
deriving Repr, DecidableEq

/-- The dictionary returned by `EmbeddingsProcessor.process`. -/
structure EmbOutcome (α : Type) where
  status : String
  embeddings : List (EmbResult α)
deriving Repr, DecidableEq

/-- The `enumerate` loop of `EmbeddingsProcessor.process`; the external
embeddings call is abstracted as a pure oracle. -/
def embLoop {α : Type} (model : List Char → α) :
    Nat → List (List Char) → List (EmbResult α)
  | _, [] => []
  | i, m :: ms => ⟨i, m, model m⟩ :: embLoop model (i + 1) ms

/-- `EmbeddingsProcessor.process` (on an input that is a list, so the
`isinstance` guard passes). -/
def embeddingsProcess {α : Type} (model : List Char → α)
    (context : List (List Char)) : EmbOutcome α :=
  ⟨"success", embLoop model 0 context⟩

/-- A Python/JSON value, for modelling the model-response payloads. -/
inductive PyVal where
  | vNone : PyVal
  | vStr : String → PyVal
  | vNum : Int → PyVal
  | vList : List PyVal → PyVal
  | vObj : List (String × PyVal) → PyVal

/-- Python `dict.get(key, default)`; raises `AttributeError` when the
receiver is not a dict. -/
def pyGet (v : PyVal) (k : String) (dflt : PyVal) : Except String PyVal :=
  match v with
  | .vObj kvs => .ok ((List.lookup k kvs).getD dflt)
  | _ => .error "AttributeError"

/-- Python `x[0]`: raises `IndexError` on an empty list or string,
`TypeError` on non-indexable values. -/
def pyIndex0 : PyVal → Except String PyVal
  | .vList [] => .error "IndexError"
  | .vList (x :: _) => .ok x
  | .vStr s =>
    match s.data with
    | [] => .error "IndexError"
    | c :: _ => .ok (.vStr ⟨[c]⟩)
  | _ => .error "TypeError"

/-- The chat response extraction of `ChatProcessor._call_model`:
`response_data.get("choices", [{}])[0].get("message", {}).get("content", "")`;
a raised exception at any step propagates as `.error`. -/
def extractChatContent (responseData : PyVal) : Except String PyVal :=
  match pyGet responseData "choices" (.vList [.vObj []]) with
  | .error e => .error e
  | .ok choices =>
    match pyIndex0 choices with
    | .error e => .error e
    | .ok first =>
      match pyGet first "message" (.vObj []) with
      | .error e => .error e
      | .ok message => pyGet message "content" (.vStr "")

/-- The embedding extraction of `EmbeddingsProcessor._call_model`:
`response_data.get("data", [{}])[0].get("embedding", [])`;
a raised exception at any step propagates as `.error`. -/
def extractEmbedding (responseData : PyVal) : Except String PyVal :=
  match pyGet responseData "data" (.vList [.vObj []]) with
  | .error e => .error e
  | .ok dat =>
    match pyIndex0 dat with
    | .error e => .error e
    | .ok first => pyGet first "embedding" (.vList [])

/-- Sum of the token counts of a list of words. -/
def sumCounts (ws : List (List Char)) : Nat := (ws.map countTokens).sum

/-- Modelled from the spec (§4.4), for comparison with the code: the
number of trailing words kept is the largest `k` such that the token
estimate of the last `k` words stays within the bound. -/
def specTailLen (bound : Int) (rws : List (List Char)) : Nat :=
  (((List.range (rws.length + 1)).filter
    (fun k => (sumCounts (rws.take k) : Int) ≤ bound)).foldr max 0)

/-- Modelled from the spec (§4.4): `extract_tail` as described — the
longest token-bounded suffix of the whitespace-delimited words, rejoined
in original order with single spaces. -/
def specExtractTail (s : List Char) (bound : Int) : List Char :=
  let rws := (splitWs s).reverse
  joinSp (rws.take (specTailLen bound rws)).reverse

/-! ### Token estimator lemmas -/

theorem not_word_of_space {c : Char} (h : isSpaceChar c = true) :
    isWordChar c = false := by
  simp only [isSpaceChar, Bool.or_eq_true, decide_eq_true_eq] at h
  rcases h with ((((rfl | rfl) | rfl) | rfl) | rfl) | rfl <;> decide

theorem takeWhile_append_eq (p : Char → Bool) (cs ds : List Char) :
    List.takeWhile p (cs ++ ds) =
      if ∀ x ∈ cs, p x = true then cs ++ List.takeWhile p ds
      else List.takeWhile p cs := by
  induction cs with
  | nil => simp
  | cons x xs ih =>
    by_cases hx : p x
    · by_cases hall : ∀ y ∈ xs, p y = true
      · have hall2 : ∀ y ∈ x :: xs, p y = true := by
          intro y hy
          rcases List.mem_cons.mp hy with rfl | hy2
          · exact hx
          · exact hall y hy2
        rw [List.cons_append, List.takeWhile_cons_of_pos hx, ih, if_pos hall,
          if_pos hall2, List.cons_append]
      · have hall2 : ¬ ∀ y ∈ x :: xs, p y = true := by
          intro hc; exact hall (fun y hy => hc y (List.mem_cons_of_mem x hy))
        rw [List.cons_append, List.takeWhile_cons_of_pos hx, ih, if_neg hall,
          if_neg hall2, List.takeWhile_cons_of_pos hx]
    · have hall2 : ¬ ∀ y ∈ x :: xs, p y = true := by
        intro hc; exact hx (hc x (List.mem_cons_self x xs))
      rw [List.cons_append, List.takeWhile_cons_of_neg hx, if_neg hall2,
        List.takeWhile_cons_of_neg hx]

theorem dropWhile_append_eq (p : Char → Bool) (cs ds : List Char) :
    List.dropWhile p (cs ++ ds) =
      if ∀ x ∈ cs, p x = true then List.dropWhile p ds
      else List.dropWhile p cs ++ ds := by
  induction cs with
  | nil => simp
  | cons x xs ih =>
    by_cases hx : p x
    · by_cases hall : ∀ y ∈ xs, p y = true
      · have hall2 : ∀ y ∈ x :: xs, p y = true := by
          intro y hy
          rcases List.mem_cons.mp hy with rfl | hy2
          · exact hx
          · exact hall y hy2
        rw [List.cons_append, List.dropWhile_cons_of_pos hx, ih, if_pos hall,
          if_pos hall2]
      · have hall2 : ¬ ∀ y ∈ x :: xs, p y = true := by
          intro hc; exact hall (fun y hy => hc y (List.mem_cons_of_mem x hy))
        rw [List.cons_append, List.dropWhile_cons_of_pos hx, ih, if_neg hall,
          if_neg hall2, List.dropWhile_cons_of_pos hx]
    · have hall2 : ¬ ∀ y ∈ x :: xs, p y = true := by
        intro hc; exact hx (hc x (List.mem_cons_self x xs))
      rw [List.cons_append, List.dropWhile_cons_of_neg hx, if_neg hall2,
        List.dropWhile_cons_of_neg hx, List.cons_append]

theorem tokenize_append_space {sep : Char} (hsep : isSpaceChar sep = true)
    (a : List Char) : ∀ b, tokenize (a ++ sep :: b) = tokenize a ++ tokenize b := by
  have hsw : isWordChar sep = false := not_word_of_space hsep
  induction a using tokenize.induct with
  | case1 =>
    intro b
    simp [tokenize, hsw, hsep]
  | case2 c cs hw ih =>
    intro b
    by_cases hall : ∀ x ∈ cs, isWordChar x = true
    · have hdrop : List.dropWhile isWordChar cs = [] :=
        List.dropWhile_eq_nil_iff.mpr hall
      have htake : List.takeWhile isWordChar cs = cs :=
        List.takeWhile_eq_self_iff.mpr hall
      have e1 : List.takeWhile isWordChar (cs ++ sep :: b) = cs := by
        rw [takeWhile_append_eq, if_pos hall, List.takeWhile_cons_of_neg (by simp [hsw]),
          List.append_nil]
      have e2 : List.dropWhile isWordChar (cs ++ sep :: b) = sep :: b := by
        rw [dropWhile_append_eq, if_pos hall, List.dropWhile_cons_of_neg (by simp [hsw])]
      simp [tokenize, hw, hsw, hsep, e1, e2, htake, hdrop]
    · have e1 : List.takeWhile isWordChar (cs ++ sep :: b) = List.takeWhile isWordChar cs := by
        rw [takeWhile_append_eq, if_neg hall]
      have e2 : List.dropWhile isWordChar (cs ++ sep :: b) =
          List.dropWhile isWordChar cs ++ sep :: b := by
        rw [dropWhile_append_eq, if_neg hall]
      simp [tokenize, hw, e1, e2, ih b]
  | case3 c cs hw hs ih =>
    intro b
    simp [tokenize, hw, hs, ih b]
  | case4 c cs hw hs ih =>
    intro b
    simp [tokenize, hw, hs, ih b]

theorem countTokens_append_space {sep : Char} (hsep : isSpaceChar sep = true)
    (a b : List Char) : countTokens (a ++ sep :: b) = countTokens a + countTokens b := by
  simp [countTokens, tokenize_append_space hsep]

theorem countTokens_joinSp (ls : List (List Char)) :
    countTokens (joinSp ls) = sumCounts ls := by
  induction ls with
  | nil => simp [joinSp, countTokens, tokenize, sumCounts]
  | cons w ws ih =>
    cases ws with
    | nil => simp [joinSp, sumCounts]
    | cons v vs =>
      have hsp : isSpaceChar ' ' = true := by decide
      rw [joinSp, countTokens_append_space hsp, ih]
      simp [sumCounts]

/-! ### Word-splitting lemmas -/

theorem splitWs_append_space {sep : Char} (hsep : isSpaceChar sep = true)
    (a : List Char) : ∀ b, splitWs (a ++ sep :: b) = splitWs a ++ splitWs b := by
  have hns : (!isSpaceChar sep) = false := by simp [hsep]
  induction a using splitWs.induct with
  | case1 =>
    intro b
    simp [splitWs, hsep]
  | case2 c cs hs ih =>
    intro b
    simp [splitWs, hs, ih b]
  | case3 c cs hs ih =>
    intro b
    by_cases hall : ∀ x ∈ cs, (!isSpaceChar x) = true
    · have hdrop : List.dropWhile (fun x => !isSpaceChar x) cs = [] :=
        List.dropWhile_eq_nil_iff.mpr hall
      have htake : List.takeWhile (fun x => !isSpaceChar x) cs = cs :=
        List.takeWhile_eq_self_iff.mpr hall
      have e1 : List.takeWhile (fun x => !isSpaceChar x) (cs ++ sep :: b) = cs := by
        rw [takeWhile_append_eq, if_pos hall,
          List.takeWhile_cons_of_neg (by simp [hsep]), List.append_nil]
      have e2 : List.dropWhile (fun x => !isSpaceChar x) (cs ++ sep :: b) = sep :: b := by
        rw [dropWhile_append_eq, if_pos hall,
          List.dropWhile_cons_of_neg (by simp [hsep])]
      simp [splitWs, hs, hsep, e1, e2, htake, hdrop]
    · have e1 : List.takeWhile (fun x => !isSpaceChar x) (cs ++ sep :: b) =
          List.takeWhile (fun x => !isSpaceChar x) cs := by
        rw [takeWhile_append_eq, if_neg hall]
      have e2 : List.dropWhile (fun x => !isSpaceChar x) (cs ++ sep :: b) =
          List.dropWhile (fun x => !isSpaceChar x) cs ++ sep :: b := by
        rw [dropWhile_append_eq, if_neg hall]
      simp [splitWs, hs, e1, e2, ih b]

theorem splitWs_space_prefix {t : List Char} (ht : ∀ c ∈ t, isSpaceChar c = true) :
    ∀ b, splitWs (t ++ b) = splitWs b := by
  induction t with
  | nil => intro b; simp
  | cons c cs ih =>
    intro b
    have hc : isSpaceChar c = true := ht c (List.mem_cons_self c cs)
    have ih2 := ih (fun x hx => ht x (List.mem_cons_of_mem c hx))
    simp [splitWs, hc, ih2 b]

theorem splitWs_word {w : List Char} (hne : w ≠ [])
    (hw : ∀ c ∈ w, isSpaceChar c = false) : splitWs w = [w] := by
  cases w with
  | nil => exact absurd rfl hne
  | cons c cs =>
    have hc : isSpaceChar c = false := hw c (List.mem_cons_self c cs)
    have hall : ∀ x ∈ cs, (!isSpaceChar x) = true := by
      intro x hx; simp [hw x (List.mem_cons_of_mem c hx)]
    have htake : List.takeWhile (fun x => !isSpaceChar x) cs = cs :=
      List.takeWhile_eq_self_iff.mpr hall
    have hdrop : List.dropWhile (fun x => !isSpaceChar x) cs = [] :=
      List.dropWhile_eq_nil_iff.mpr hall
    simp [splitWs, hc, htake, hdrop]

theorem splitWs_mem {s w : List Char} (h : w ∈ splitWs s) :
    w ≠ [] ∧ ∀ c ∈ w, isSpaceChar c = false := by
  induction s using splitWs.induct with
  | case1 => simp [splitWs] at h
  | case2 c cs hs ih =>
    rw [splitWs, if_pos hs] at h
    exact ih h
  | case3 c cs hs ih =>
    rw [splitWs, if_neg hs] at h
    rcases List.mem_cons.mp h with rfl | h2
    · refine ⟨by simp, ?_⟩
      intro x hx
      rcases List.mem_cons.mp hx with rfl | hx2
      · simpa using hs
      · have := List.mem_takeWhile_imp hx2
        simpa using this
    · exact ih h2

theorem splitWs_joinSp (ls : List (List Char)) :
    splitWs (joinSp ls) = ls.flatMap splitWs := by
  induction ls with
  | nil => simp [joinSp, splitWs]
  | cons w ws ih =>
    cases ws with
    | nil => simp [joinSp]
    | cons v vs =>
      have hsp : isSpaceChar ' ' = true := by decide
      rw [joinSp, splitWs_append_space hsp, ih]
      simp

theorem breakLine_decomp (s : List Char) :
    ∃ t, s = (breakLine s).1 ++ (t ++ (breakLine s).2) ∧
      (∀ c ∈ t, isSpaceChar c = true) ∧ (t = [] → (breakLine s).2 = []) := by
  induction s with
  | nil => exact ⟨[], by simp [breakLine]⟩
  | cons c cs ih =>
    by_cases hr : c = '\r'
    · subst hr
      cases cs with
      | nil => exact ⟨['\r'], by simp [breakLine], by decide, by simp [breakLine]⟩
      | cons d ds =>
        by_cases hd : d = '\n'
        · subst hd
          refine ⟨['\r', '\n'], by simp [breakLine], ?_, by simp [breakLine]⟩
          intro x hx
          rcases List.mem_cons.mp hx with rfl | hx2
          · decide
          · rcases List.mem_cons.mp hx2 with rfl | hx3
            · decide
            · simp at hx3
        · refine ⟨['\r'], ?_, ?_, by simp [breakLine, hd]⟩
          · simp [breakLine, hd]
          · intro x hx
            rcases List.mem_cons.mp hx with rfl | hx2
            · decide
            · simp at hx2
    · by_cases hb : isLineBoundary c
      · refine ⟨[c], ?_, ?_, by simp [breakLine, hr, hb]⟩
        · simp [breakLine, hr, hb]
        · intro x hx
          rcases List.mem_cons.mp hx with rfl | hx2
          · simp only [isLineBoundary, Bool.or_eq_true, decide_eq_true_eq] at hb
            rcases hb with ((rfl | rfl) | rfl) | rfl
            · decide
            · exact absurd rfl hr
            · decide
            · decide
          · simp at hx2
      · obtain ⟨t, hterm, hts, htnil⟩ := ih
        have hbl : breakLine (c :: cs) =
            (c :: (breakLine cs).1, (breakLine cs).2) := by
          simp [breakLine, hr, hb]
        refine ⟨t, ?_, hts, ?_⟩
        · rw [hbl]
          simpa using hterm
        · intro h0
          rw [hbl]
          exact htnil h0

theorem splitWs_breakLine (s : List Char) :
    splitWs s = splitWs (breakLine s).1 ++ splitWs (breakLine s).2 := by
  obtain ⟨t, hterm, hts, htnil⟩ := breakLine_decomp s
  cases t with
  | nil =>
    rw [htnil rfl] at hterm ⊢
    conv_lhs => rw [hterm]
    simp [splitWs]
  | cons sep t2 =>
    have hsep : isSpaceChar sep = true := hts sep (List.mem_cons_self sep t2)
    conv_lhs => rw [hterm]
    rw [List.cons_append, splitWs_append_space hsep,
      splitWs_space_prefix (fun x hx => hts x (List.mem_cons_of_mem sep hx))]

theorem splitWs_splitlines (s : List Char) :
    (splitlines s).flatMap splitWs = splitWs s := by
  induction s using splitlines.induct with
  | case1 => simp [splitlines, splitWs]
  | case2 c cs ih =>
    rw [splitlines, List.flatMap_cons, ih, ← splitWs_breakLine]

/-! ### Chunk-splitter invariants -/

/-- A whitespace-free non-empty word. -/
def goodWord (w : List Char) : Prop := w ≠ [] ∧ ∀ ch ∈ w, isSpaceChar ch = false

/-- Loop invariant of `_split_into_chunks`: the running count equals the
token sum of the pending items; the pending chunk is within budget unless
it is a lone oversized word; every closed chunk is within budget or a
lone oversized word. -/
def stInv (eff : Nat) (st : SplitState) : Prop :=
  st.count = sumCounts st.current ∧
  (st.count ≤ eff ∨ ∃ u, st.current = [u] ∧ goodWord u) ∧
  (∀ c ∈ st.chunks, countTokens c ≤ eff ∨ goodWord c)

theorem sumCounts_append (a b : List (List Char)) :
    sumCounts (a ++ b) = sumCounts a + sumCounts b := by
  simp [sumCounts]

theorem sumCounts_singleton (w : List Char) : sumCounts [w] = countTokens w := by
  simp [sumCounts]

theorem joinSp_chunkOk {eff : Nat} {st : SplitState} (h : stInv eff st) :
    countTokens (joinSp st.current) ≤ eff ∨ goodWord (joinSp st.current) := by
  obtain ⟨h1, h2, _⟩ := h
  rcases h2 with hle | ⟨u, hu, hg⟩
  · left
    rw [countTokens_joinSp, ← h1]
    exact hle
  · right
    rw [hu]
    exact hg

theorem processWord_stInv {eff : Nat} {st : SplitState} {w : List Char}
    (hw : goodWord w) (h : stInv eff st) : stInv eff (processWord eff st w) := by
  obtain ⟨h1, h2, h3⟩ := h
  unfold processWord
  by_cases hc : st.count + countTokens w > eff
  · simp only [hc, if_pos]
    refine ⟨(sumCounts_singleton w).symm, Or.inr ⟨w, rfl, hw⟩, ?_⟩
    intro c hcmem
    rcases List.mem_append.mp hcmem with hcl | hcr
    · exact h3 c hcl
    · rcases List.mem_singleton.mp hcr with rfl
      exact joinSp_chunkOk ⟨h1, h2, h3⟩
  · simp only [hc, if_neg, if_false]
    refine ⟨?_, Or.inl ?_, h3⟩
    · show st.count + countTokens w = sumCounts (st.current ++ [w])
      rw [sumCounts_append, sumCounts_singleton, h1]
    · show st.count + countTokens w ≤ eff
      omega

theorem foldl_processWord_stInv {eff : Nat} {ws : List (List Char)}
    (hws : ∀ w ∈ ws, goodWord w) :
    ∀ st : SplitState, stInv eff st → stInv eff (ws.foldl (processWord eff) st) := by
  induction ws with
  | nil => intro st h; exact h
  | cons w ws2 ih =>
    intro st h
    rw [List.foldl_cons]
    exact ih (fun u hu => hws u (List.mem_cons_of_mem w hu)) _
      (processWord_stInv (hws w (List.mem_cons_self w ws2)) h)

theorem processLine_stInv {eff : Nat} {st : SplitState} (line : List Char)
    (h : stInv eff st) : stInv eff (processLine eff st line) := by
  obtain ⟨h1, h2, h3⟩ := h
  unfold processLine
  by_cases hbig : countTokens line > eff
  · simp only [hbig, if_pos]
    exact foldl_processWord_stInv (fun w hw => splitWs_mem hw) st ⟨h1, h2, h3⟩
  · simp only [hbig, if_neg, if_false]
    by_cases hover : st.count + countTokens line > eff
    · simp only [hover, if_pos]
      refine ⟨(sumCounts_singleton line).symm, Or.inl ?_, ?_⟩
      · show countTokens line ≤ eff
        omega
      · intro c hcmem
        rcases List.mem_append.mp hcmem with hcl | hcr
        · exact h3 c hcl
        · rcases List.mem_singleton.mp hcr with rfl
          exact joinSp_chunkOk ⟨h1, h2, h3⟩
    · simp only [hover, if_neg, if_false]
      refine ⟨?_, Or.inl ?_, h3⟩
      · show st.count + countTokens line = sumCounts (st.current ++ [line])
        rw [sumCounts_append, sumCounts_singleton, h1]
      · show st.count + countTokens line ≤ eff
        omega

theorem foldl_processLine_stInv {eff : Nat} (lines : List (List Char)) :
    ∀ st : SplitState, stInv eff st → stInv eff (lines.foldl (processLine eff) st) := by
  induction lines with
  | nil => intro st h; exact h
  | cons l ls ih =>
    intro st h
    rw [List.foldl_cons]
    exact ih _ (processLine_stInv l h)

theorem splitIntoChunks_ok_eff {chunkSize : Int} {context lastChunkEnd : List Char}
    {inc : Bool} {chunks : List (List Char)}
    (h : splitIntoChunks chunkSize context lastChunkEnd inc = .ok chunks) :
    0 < effectiveBudget chunkSize lastChunkEnd inc := by
  by_cases heff : effectiveBudget chunkSize lastChunkEnd inc ≤ 0
  · rw [splitIntoChunks, if_pos heff] at h
    exact absurd h (by simp)
  · omega

/-- The splitter's line fold, abbreviated for the lemmas below. -/
def splitFold (eff : Nat) (context : List Char) : SplitState :=
  (splitlines context).foldl (processLine eff) ⟨[], [], 0⟩

theorem splitIntoChunks_ok_chunks {chunkSize : Int} {context lastChunkEnd : List Char}
    {inc : Bool} {chunks : List (List Char)}
    (h : splitIntoChunks chunkSize context lastChunkEnd inc = .ok chunks) :
    chunks =
      if (splitFold (effectiveBudget chunkSize lastChunkEnd inc).toNat context).current.isEmpty
      then (splitFold (effectiveBudget chunkSize lastChunkEnd inc).toNat context).chunks
      else (splitFold (effectiveBudget chunkSize lastChunkEnd inc).toNat context).chunks ++
        [joinSp (splitFold (effectiveBudget chunkSize lastChunkEnd inc).toNat context).current] := by
  have heff := splitIntoChunks_ok_eff h
  rw [splitIntoChunks, if_neg (by omega)] at h
  rw [show (splitlines context).foldl
      (processLine (effectiveBudget chunkSize lastChunkEnd inc).toNat) ⟨[], [], 0⟩ =
      splitFold (effectiveBudget chunkSize lastChunkEnd inc).toNat context from rfl] at h
  exact (Except.ok.inj h).symm

theorem splitIntoChunks_bound {chunkSize : Int} {context lastChunkEnd : List Char}
    {inc : Bool} {chunks : List (List Char)}
    (h : splitIntoChunks chunkSize context lastChunkEnd inc = .ok chunks) :
    ∀ c ∈ chunks, countTokens c ≤ (effectiveBudget chunkSize lastChunkEnd inc).toNat ∨
      goodWord c := by
  have hch := splitIntoChunks_ok_chunks h
  set eff := (effectiveBudget chunkSize lastChunkEnd inc).toNat with heff
  have hinv : stInv eff (splitFold eff context) :=
    foldl_processLine_stInv (splitlines context) ⟨[], [], 0⟩
      ⟨by simp [sumCounts], Or.inl (Nat.zero_le _), by simp⟩
  set st := splitFold eff context with hst
  obtain ⟨h1, h2, h3⟩ := hinv
  intro c hc
  rw [hch] at hc
  by_cases hemp : st.current.isEmpty
  · rw [if_pos hemp] at hc
    exact h3 c hc
  · rw [if_neg hemp] at hc
    rcases List.mem_append.mp hc with hcl | hcr
    · exact h3 c hcl
    · rcases List.mem_singleton.mp hcr with rfl
      exact joinSp_chunkOk ⟨h1, h2, h3⟩

/-- The words contained in the splitter state, in order. -/
def stWords (st : SplitState) : List (List Char) :=
  st.chunks.flatMap splitWs ++ st.current.flatMap splitWs

theorem processWord_stWords {eff : Nat} {st : SplitState} {w : List Char}
    (hw : goodWord w) : stWords (processWord eff st w) = stWords st ++ [w] := by
  unfold processWord
  by_cases hc : st.count + countTokens w > eff
  · simp only [hc, if_pos]
    simp [stWords, splitWs_joinSp, splitWs_word hw.1 hw.2]
  · simp only [hc, if_neg, if_false]
    simp [stWords, splitWs_word hw.1 hw.2]

theorem foldl_processWord_stWords {eff : Nat} {ws : List (List Char)}
    (hws : ∀ w ∈ ws, goodWord w) :
    ∀ st : SplitState, stWords (ws.foldl (processWord eff) st) = stWords st ++ ws := by
  induction ws with
  | nil => intro st; simp
  | cons w ws2 ih =>
    intro st
    rw [List.foldl_cons, ih (fun u hu => hws u (List.mem_cons_of_mem w hu)),
      processWord_stWords (hws w (List.mem_cons_self w ws2))]
    simp

theorem processLine_stWords {eff : Nat} {st : SplitState} (line : List Char) :
    stWords (processLine eff st line) = stWords st ++ splitWs line := by
  unfold processLine
  by_cases hbig : countTokens line > eff
  · simp only [hbig, if_pos]
    exact foldl_processWord_stWords (fun w hw => splitWs_mem hw) st
  · simp only [hbig, if_neg, if_false]
    by_cases hover : st.count + countTokens line > eff
    · simp only [hover, if_pos]
      simp [stWords, splitWs_joinSp]
    · simp only [hover, if_neg, if_false]
      simp [stWords]

theorem foldl_processLine_stWords {eff : Nat} (lines : List (List Char)) :
    ∀ st : SplitState, stWords (lines.foldl (processLine eff) st) =
      stWords st ++ lines.flatMap splitWs := by
  induction lines with
  | nil => intro st; simp
  | cons l ls ih =>
    intro st
    rw [List.foldl_cons, ih, processLine_stWords]
    simp

theorem countTokens_nil : countTokens [] = 0 := by
  simp [countTokens, tokenize]

theorem sumCounts_cons (w : List Char) (ws : List (List Char)) :
    sumCounts (w :: ws) = countTokens w + sumCounts ws := by
  simp [sumCounts]

theorem countTokens_pos {w : List Char} (hne : w ≠ [])
    (hw : ∀ c ∈ w, isSpaceChar c = false) : 1 ≤ countTokens w := by
  cases w with
  | nil => exact absurd rfl hne
  | cons c cs =>
    have hc : isSpaceChar c = false := hw c (List.mem_cons_self c cs)
    by_cases hcw : isWordChar c
    · rw [countTokens, tokenize, if_pos hcw]
      simp only [List.map_cons, List.sum_cons, tokenCost]
      exact le_trans (le_max_left 1 _) (Nat.le_add_right _ _)
    · rw [countTokens, tokenize, if_neg hcw, if_neg (by simp [hc])]
      simp only [List.map_cons, List.sum_cons, tokenCost]
      exact le_trans (le_max_left 1 _) (Nat.le_add_right _ _)

/-! ### Continuity-tail lemmas -/

theorem tailTake_sum_le (bound : Int) :
    ∀ (ws : List (List Char)) (acc : Int), acc ≤ bound →
      acc + (sumCounts (tailTake bound ws acc) : Int) ≤ bound := by
  intro ws
  induction ws with
  | nil => intro acc h; simpa [tailTake, sumCounts] using h
  | cons w ws2 ih =>
    intro acc h
    rw [tailTake]
    by_cases hex : acc + (countTokens w : Int) > bound
    · simpa [hex, sumCounts] using h
    · have hrec := ih (acc + countTokens w) (by omega)
      simp only [hex, if_neg, if_false, sumCounts_cons, Nat.cast_add]
      omega

theorem sumCounts_reverse (ws : List (List Char)) :
    sumCounts ws.reverse = sumCounts ws := by
  simp [sumCounts, List.map_reverse, List.sum_reverse]

theorem extractLastChunkEnd_le (s : List Char) (bound : Int) (h : 0 ≤ bound) :
    (countTokens (extractLastChunkEnd s bound) : Int) ≤ bound := by
  rw [extractLastChunkEnd, countTokens_joinSp, sumCounts_reverse]
  have := tailTake_sum_le bound (splitWs s).reverse 0 h
  omega

theorem tailBefore_le_fifty (model : Nat → List Char → List Char → List Char)
    (prompts : Prompts) (inc : Bool) (chunks : List (List Char)) :
    ∀ i, (countTokens (tailBefore model prompts inc chunks i) : Int) ≤ 50 := by
  cases inc with
  | false =>
    intro i
    cases i with
    | zero => simp [tailBefore, countTokens_nil]
    | succ j => simp [tailBefore, countTokens_nil]
  | true =>
    intro i
    induction i with
    | zero => simp [tailBefore, countTokens_nil]
    | succ i ih =>
      rw [tailBefore]
      simp only [if_true]
      cases hg : chunks.get? i with
      | none => simpa [hg] using ih
      | some chunk =>
        simp only [hg]
        exact extractLastChunkEnd_le _ 50 (by norm_num)

theorem splitIntoChunks_words {chunkSize : Int} {context lastChunkEnd : List Char}
    {inc : Bool} {chunks : List (List Char)}
    (h : splitIntoChunks chunkSize context lastChunkEnd inc = .ok chunks) :
    chunks.flatMap splitWs = splitWs context := by
  have hch := splitIntoChunks_ok_chunks h
  set eff := (effectiveBudget chunkSize lastChunkEnd inc).toNat with heff
  set st := splitFold eff context with hst
  have hwords : stWords st = (splitlines context).flatMap splitWs := by
    rw [hst, splitFold, foldl_processLine_stWords]
    simp [stWords, splitWs]
  rw [splitWs_splitlines] at hwords
  by_cases hemp : st.current.isEmpty
  · rw [if_pos hemp] at hch
    have hcur : st.current = [] := List.isEmpty_iff.mp hemp
    rw [hch, ← hwords]
    simp [stWords, hcur]
  · rw [if_neg hemp] at hch
    rw [hch, ← hwords]
    simp [stWords, splitWs_joinSp]

/-! ### Chat-loop lemmas -/

theorem calculateReservedTokens_eq (mt : Int) (p c : List Char) (l : Int) :
    calculateReservedTokens mt p c l =
      if mt - ((countTokens p : Int) + countTokens c + l) ≤ 0
      then .error "Not enough tokens available for the response."
      else .ok (mt - ((countTokens p : Int) + countTokens c + l)) := rfl

theorem tailBefore_false (model : Nat → List Char → List Char → List Char)
    (prompts : Prompts) (chunks : List (List Char)) (i : Nat) :
    tailBefore model prompts false chunks i = [] := by
  cases i with
  | zero => rfl
  | succ j => simp [tailBefore]

theorem chatLoop_ok_indices (mt : Int) (model : Nat → List Char → List Char → List Char)
    (prompts : Prompts) (inc : Bool) :
    ∀ (chunks : List (List Char)) (i : Nat) (tail : List Char) (cnt : Int)
      (acc res : List ChatResult),
      chatLoop mt model prompts inc chunks i tail cnt acc = .ok res →
      res.map (fun r => r.index) =
        acc.map (fun r => r.index) ++ List.range' (i + 1) chunks.length := by
  intro chunks
  induction chunks with
  | nil =>
    intro i tail cnt acc res h
    rw [chatLoop] at h
    rw [← Except.ok.inj h]
    simp
  | cons chunk rest ih =>
    intro i tail cnt acc res h
    simp only [chatLoop] at h
    cases hr : calculateReservedTokens mt
        (if i = 0 then prompts.initial else substAll prompts.followUpTemplate tail)
        chunk cnt with
    | error e =>
      rw [hr] at h
      simp at h
    | ok v =>
      rw [hr] at h
      rcases Bool.eq_false_or_eq_true inc with hinc | hinc
      · subst hinc
        simp only [Bool.false_eq_true, if_false] at h
        have hmap := ih _ _ _ _ _ h
        rw [hmap]
        simp [List.range'_succ]
      · subst hinc
        simp only [if_true] at h
        have hmap := ih _ _ _ _ _ h
        rw [hmap]
        simp [List.range'_succ]

theorem chatProcess_ok_indices {mt cs : Int}
    {model : Nat → List Char → List Char → List Char} {ctx : List Char}
    {prompts : Prompts} {opts : Option ChatOptions} {o : ChatOutcome}
    (h : chatProcess mt cs model ctx prompts opts = .ok o) :
    o.chunks.map (fun r => r.index) = List.range' 1 o.chunks.length := by
  simp only [chatProcess] at h
  split at h
  · simp at h
  · rename_i chunks hs
    split at h
    · simp at h
    · rename_i results hl
      have hmap := chatLoop_ok_indices mt model prompts (optInclude opts)
        chunks 0 [] 0 [] results hl
      simp only [List.map_nil, List.nil_append] at hmap
      have hlen : results.length = chunks.length := by
        have := congrArg List.length hmap
        simpa using this
      rw [← Except.ok.inj h]
      simp only [hmap, hlen]

theorem embLoop_indices {α : Type} (model : List Char → α) :
    ∀ (ms : List (List Char)) (i : Nat),
      (embLoop model i ms).map (fun r => r.index) = List.range' i ms.length := by
  intro ms
  induction ms with
  | nil => intro i; simp [embLoop]
  | cons m ms2 ih =>
    intro i
    simp [embLoop, List.range'_succ, ih (i + 1)]

theorem chatLoop_march (mt : Int) (model : Nat → List Char → List Char → List Char)
    (prompts : Prompts) (inc : Bool) (chunks : List (List Char)) :
    ∀ i, i ≤ chunks.length →
      (∀ j, j < i → 0 < reservedBefore mt model prompts inc chunks j) →
      ∃ acc, chatLoop mt model prompts inc chunks 0 [] 0 [] =
        chatLoop mt model prompts inc (chunks.drop i) i
          (tailBefore model prompts inc chunks i)
          (countTokens (tailBefore model prompts inc chunks i)) acc := by
  intro i
  induction i with
  | zero =>
    intro _ _
    refine ⟨[], ?_⟩
    simp [tailBefore, countTokens_nil]
  | succ i ih =>
    intro hi hpos
    have hilt : i < chunks.length := hi
    obtain ⟨acc, hacc⟩ := ih (Nat.le_of_lt hilt) (fun j hj => hpos j (Nat.lt_succ_of_lt hj))
    rw [List.drop_eq_getElem_cons hilt] at hacc
    have hget : chunks.get? i = some chunks[i] := by
      simp [List.get?_eq_getElem?, List.getElem?_eq_getElem hilt]
    have hgd : chunks.getD i [] = chunks[i] := List.getD_eq_getElem chunks [] hilt
    have hres := hpos i (Nat.lt_succ_self i)
    rw [reservedBefore, promptBefore, hgd] at hres
    have hok : calculateReservedTokens mt
        (if i = 0 then prompts.initial
         else substAll prompts.followUpTemplate (tailBefore model prompts inc chunks i))
        chunks[i] (countTokens (tailBefore model prompts inc chunks i)) =
        .ok (mt - ((countTokens (if i = 0 then prompts.initial
          else substAll prompts.followUpTemplate (tailBefore model prompts inc chunks i)) : Int)
          + countTokens chunks[i]
          + countTokens (tailBefore model prompts inc chunks i))) := by
      rw [calculateReservedTokens_eq, if_neg (by omega)]
    simp only [chatLoop, hok] at hacc
    rcases Bool.eq_false_or_eq_true inc with hinc | hinc
    · subst hinc
      rw [if_pos (by trivial)] at hacc
      refine ⟨acc ++ [⟨i + 1, chunks[i],
        model i (if i = 0 then prompts.initial
          else substAll prompts.followUpTemplate (tailBefore model prompts true chunks i))
          chunks[i]⟩], ?_⟩
      rw [hacc]
      have htail : tailBefore model prompts true chunks (i + 1) =
          extractLastChunkEnd (model i (if i = 0 then prompts.initial
            else substAll prompts.followUpTemplate (tailBefore model prompts true chunks i))
            chunks[i]) 50 := by
        rw [tailBefore]
        rw [if_pos (by trivial), hget]
      rw [htail]
    · subst hinc
      rw [if_neg (by simp)] at hacc
      refine ⟨acc ++ [⟨i + 1, chunks[i],
        model i (if i = 0 then prompts.initial
          else substAll prompts.followUpTemplate (tailBefore model prompts false chunks i))
          chunks[i]⟩], ?_⟩
      rw [hacc, tailBefore_false, tailBefore_false]

theorem tokenize_replicate {c : Char} (hw : isWordChar c = true) (n : Nat) :
    tokenize (List.replicate (n + 1) c) = [List.replicate (n + 1) c] := by
  have hmem : ∀ x ∈ List.replicate n c, isWordChar x = true := by
    intro x hx
    rw [List.eq_of_mem_replicate hx]
    exact hw
  rw [List.replicate_succ, tokenize, if_pos hw,
    List.takeWhile_eq_self_iff.mpr hmem, List.dropWhile_eq_nil_iff.mpr hmem]
  rw [tokenize]

theorem countTokens_replicate {c : Char} (hw : isWordChar c = true) (n : Nat) :
    countTokens (List.replicate (n + 1) c) = max 1 ((n + 1) / 5) := by
  rw [countTokens, tokenize_replicate hw]
  simp [tokenCost]

/-! ### Greedy tail extraction versus its specification -/

theorem sum_take_le_sum (l : List Nat) : ∀ k, (l.take k).sum ≤ l.sum := by
  induction l with
  | nil => intro k; simp
  | cons x xs ih =>
    intro k
    cases k with
    | zero => simp
    | succ k2 =>
      simp only [List.take_succ_cons, List.sum_cons]
      exact Nat.add_le_add_left (ih k2) x

theorem sumCounts_take_mono (ws : List (List Char)) {k k' : Nat} (h : k ≤ k') :
    sumCounts (ws.take k) ≤ sumCounts (ws.take k') := by
  have heq : ws.take k = (ws.take k').take k := by
    rw [List.take_take, min_eq_left h]
  rw [heq, sumCounts, sumCounts, List.map_take]
  exact sum_take_le_sum ((ws.take k').map countTokens) k

theorem tailTake_spec (bound : Int) :
    ∀ (ws : List (List Char)) (acc : Int), acc ≤ bound →
      ∃ L, tailTake bound ws acc = ws.take L ∧ L ≤ ws.length ∧
        acc + (sumCounts (ws.take L) : Int) ≤ bound ∧
        (L = ws.length ∨ bound < acc + (sumCounts (ws.take (L + 1)) : Int)) := by
  intro ws
  induction ws with
  | nil =>
    intro acc h
    exact ⟨0, by simp [tailTake], by simp, by simpa [sumCounts] using h, Or.inl rfl⟩
  | cons w ws2 ih =>
    intro acc h
    rw [tailTake]
    by_cases hex : acc + (countTokens w : Int) > bound
    · refine ⟨0, by simp [hex], by simp, by simpa [sumCounts] using h, Or.inr ?_⟩
      simpa [sumCounts_cons, sumCounts] using hex
    · obtain ⟨L, hL1, hL2, hL3, hL4⟩ := ih (acc + countTokens w) (by omega)
      refine ⟨L + 1, ?_, by simpa using hL2, ?_, ?_⟩
      · simp only [hex, if_neg, if_false, List.take_succ_cons, hL1]
      · rw [List.take_succ_cons, sumCounts_cons, Nat.cast_add]
        omega
      · rcases hL4 with h4 | h4
        · left; simp [h4]
        · right
          rw [List.take_succ_cons, sumCounts_cons, Nat.cast_add]
          omega

theorem foldr_max_le {l : List Nat} {L : Nat} (h : ∀ x ∈ l, x ≤ L) :
    l.foldr max 0 ≤ L := by
  induction l with
  | nil => simp
  | cons x xs ih =>
    simp only [List.foldr_cons]
    exact max_le (h x (List.mem_cons_self x xs))
      (ih (fun y hy => h y (List.mem_cons_of_mem x hy)))

theorem foldr_max_eq {l : List Nat} {L : Nat} (hmem : L ∈ l) (h : ∀ x ∈ l, x ≤ L) :
    l.foldr max 0 = L := by
  induction l with
  | nil => simp at hmem
  | cons x xs ih =>
    simp only [List.foldr_cons]
    rcases List.mem_cons.mp hmem with rfl | hmem2
    · exact max_eq_left_iff.mpr (foldr_max_le (fun y hy => h y (List.mem_cons_of_mem L hy)))
    · rw [ih hmem2 (fun y hy => h y (List.mem_cons_of_mem x hy))]
      exact max_eq_right_iff.mpr (h x (List.mem_cons_self x xs))

theorem specTailLen_eq (bound : Int) (rws : List (List Char)) {L : Nat}
    (hL2 : L ≤ rws.length) (hL3 : (sumCounts (rws.take L) : Int) ≤ bound)
    (hL4 : L = rws.length ∨ bound < (sumCounts (rws.take (L + 1)) : Int)) :
    specTailLen bound rws = L := by
  rw [specTailLen]
  apply foldr_max_eq
  · rw [List.mem_filter]
    refine ⟨List.mem_range.mpr (by omega), by simpa using hL3⟩
  · intro x hx
    rw [List.mem_filter, List.mem_range] at hx
    obtain ⟨hxr, hxp⟩ := hx
    by_contra hgt
    push_neg at hgt
    rcases hL4 with h4 | h4
    · omega
    · have hmono : sumCounts (rws.take (L + 1)) ≤ sumCounts (rws.take x) :=
        sumCounts_take_mono rws (by omega)
      have hxle : (sumCounts (rws.take x) : Int) ≤ bound := by simpa using hxp
      have : (sumCounts (rws.take (L + 1)) : Int) ≤ (sumCounts (rws.take x) : Int) := by
        exact_mod_cast hmono
      omega

theorem extractLastChunkEnd_eq_spec (s : List Char) (bound : Int) :
    extractLastChunkEnd s bound = specExtractTail s bound := by
  by_cases hb : 0 ≤ bound
  · obtain ⟨L, h1, h2, h3, h4⟩ := tailTake_spec bound (splitWs s).reverse 0 hb
    have hlen : specTailLen bound (splitWs s).reverse = L := by
      apply specTailLen_eq bound _ h2
      · omega
      · rcases h4 with h4 | h4
        · exact Or.inl h4
        · exact Or.inr (by omega)
    rw [extractLastChunkEnd, specExtractTail]
    simp only [h1, hlen]
  · push_neg at hb
    have h1 : tailTake bound (splitWs s).reverse 0 = [] := by
      cases hws : (splitWs s).reverse with
      | nil => simp [tailTake]
      | cons w ws2 =>
        rw [tailTake]
        have hcw : (0 : Int) ≤ (countTokens w : Int) := Int.ofNat_nonneg _
        rw [if_pos (by omega)]
    have h2 : specTailLen bound (splitWs s).reverse = 0 := by
      rw [specTailLen]
      refine Nat.le_zero.mp (foldr_max_le ?_)
      intro x hx
      rw [List.mem_filter] at hx
      have hx2 := hx.2
      simp only [decide_eq_true_eq] at hx2
      exfalso
      have hpos : (0 : Int) ≤ (sumCounts ((splitWs s).reverse.take x) : Int) :=
        Int.ofNat_nonneg _
      omega
    rw [extractLastChunkEnd, specExtractTail]
    simp only [h1, h2]
    simp [joinSp]

/-! ### Binary64 model lemmas -/

theorem dltB_iff (a b : Dyadic) : dltB a b = true ↔ a.toRat < b.toRat := by
  rw [dltB]
  simp only [decide_eq_true_eq]
  have h2 : (0 : ℚ) < (2 : ℚ) ^ min a.e b.e := zpow_pos (by norm_num) _
  have key : ∀ x : Dyadic, min a.e b.e ≤ x.e →
      ((x.m * 2 ^ (x.e - min a.e b.e).toNat : Int) : ℚ) * (2 : ℚ) ^ min a.e b.e = x.toRat := by
    intro x hx
    push_cast
    rw [Dyadic.toRat, mul_assoc]
    congr 1
    rw [← zpow_natCast (2 : ℚ) (x.e - min a.e b.e).toNat, Int.toNat_of_nonneg (by omega),
      ← zpow_add₀ (by norm_num : (2 : ℚ) ≠ 0)]
    congr 1
    omega
  rw [← key a (min_le_left _ _), ← key b (min_le_right _ _),
    mul_lt_mul_right h2, Int.cast_lt]

theorem dbl03_val : dbl03.toRat = 5404319552844595 / 2 ^ 54 := by
  rw [Dyadic.toRat]
  norm_num [dbl03]

theorem dbl02_val : dbl02.toRat = 3602879701896397 / 2 ^ 54 := by
  rw [Dyadic.toRat]
  norm_num [dbl02]

theorem dbl08_val : dbl08.toRat = 3602879701896397 / 2 ^ 52 := by
  rw [Dyadic.toRat]
  norm_num [dbl08]

/-- `dbl03` is the correctly rounded binary64 value of 0.3: a 53-bit
mantissa within half an ulp (2^-55 at 0.3's binade) of 3/10. -/
theorem dbl03_correctly_rounded :
    dbl03.m.natAbs < 2 ^ 53 ∧
    dbl03.toRat - 3 / 10 ≤ 1 / 2 ^ 55 ∧ (3 : ℚ) / 10 - dbl03.toRat ≤ 1 / 2 ^ 55 := by
  refine ⟨by decide, ?_, ?_⟩ <;> (rw [dbl03_val]; norm_num)

/-- `dbl02` is the correctly rounded binary64 value of 0.2: a 53-bit
mantissa within half an ulp (2^-56 at 0.2's binade) of 2/10. -/
theorem dbl02_correctly_rounded :
    dbl02.m.natAbs < 2 ^ 53 ∧
    dbl02.toRat - 2 / 10 ≤ 1 / 2 ^ 56 ∧ (2 : ℚ) / 10 - dbl02.toRat ≤ 1 / 2 ^ 56 := by
  refine ⟨by decide, ?_, ?_⟩ <;> (rw [dbl02_val]; norm_num)

/-- `dbl08` is the correctly rounded binary64 value of 0.8: a 53-bit
mantissa within half an ulp (2^-54 at 0.8's binade) of 8/10. -/
theorem dbl08_correctly_rounded :
    dbl08.m.natAbs < 2 ^ 53 ∧
    dbl08.toRat - 8 / 10 ≤ 1 / 2 ^ 54 ∧ (8 : ℚ) / 10 - dbl08.toRat ≤ 1 / 2 ^ 54 := by
  refine ⟨by decide, ?_, ?_⟩ <;> (rw [dbl08_val]; norm_num)

/-! ### Claim theorems -/

/-- Claim C1, counterexample: the claim asserts a 1-based `index` in both
modes, but in embedding mode `EmbeddingsProcessor.process` stores the raw
`enumerate` index, so the first result item (position 1) carries index 0,
not 1. -/
theorem c1_counterexample :
    ((embeddingsProcess (fun _ => ([] : List Int)) [['a']]).embeddings.map
      (fun r => r.index)) = [0] ∧ (0 : Nat) ≠ 1 :=
  ⟨rfl, by decide⟩

/-- Claim C1, amended: every chat-mode result item carries a 1-based index
equal to its position in the result list, while every embedding-mode
result item carries a 0-based index equal to its position minus one. -/
theorem c1_amended :
    (∀ (mt cs : Int) (model : Nat → List Char → List Char → List Char)
      (ctx : List Char) (prompts : Prompts) (opts : Option ChatOptions) (o : ChatOutcome),
      chatProcess mt cs model ctx prompts opts = .ok o →
      o.chunks.map (fun r => r.index) = List.range' 1 o.chunks.length) ∧
    (∀ (α : Type) (model : List Char → α) (ctx : List (List Char)),
      (embeddingsProcess model ctx).embeddings.map (fun r => r.index) =
        List.range' 0 ctx.length) :=
  ⟨fun _ _ _ _ _ _ _ h => chatProcess_ok_indices h,
   fun _ model ctx => embLoop_indices model ctx 0⟩

/-- Witness for the amended C1: a concrete one-chunk chat run. -/
theorem c1_amended_witness :
    (⟨"success", [⟨1, "Hi!".toList, ['o', 'k']⟩]⟩ :
      ChatOutcome).chunks.map (fun r => r.index) =
      List.range' 1 (⟨"success",
        [⟨1, "Hi!".toList, ['o', 'k']⟩]⟩ : ChatOutcome).chunks.length :=
  c1_amended.1 100 140 (fun _ _ _ => ['o', 'k']) ("Hi!".toList) ⟨['p'], ['q']⟩ none _
    (by simp +decide [chatProcess, optInclude, splitIntoChunks, effectiveBudget, splitlines,
      breakLine, processLine, processWord, splitWs, countTokens, tokenize, tokenCost,
      splitFold, joinSp, chatLoop, calculateReservedTokens])

/-- Claim C2, counterexample: a run with `include_last_chunk` enabled and a
caller-supplied `last_chunk_token_count` of 1 succeeds, yet the tail
carried out of iteration 1 (and into iteration 2's prompt) holds 2 tokens,
exceeding the caller-supplied bound: the code never reads
`options.last_chunk_token_count` and always bounds the tail by the default
50. -/
theorem c2_counterexample :
    chatProcess 100 2 (fun _ _ _ => "hello world".toList) ("Hi!\nYo!".toList)
      ⟨"p".toList, "q {last_chunk_end}".toList⟩ (some ⟨true, 1⟩) =
      .ok ⟨"success", [⟨1, "Hi!".toList, "hello world".toList⟩,
        ⟨2, "Yo!".toList, "hello world".toList⟩]⟩ ∧
    splitIntoChunks 2 ("Hi!\nYo!".toList) [] true = .ok ["Hi!".toList, "Yo!".toList] ∧
    countTokens (tailBefore (fun _ _ _ => "hello world".toList)
      ⟨"p".toList, "q {last_chunk_end}".toList⟩ true ["Hi!".toList, "Yo!".toList] 1) = 2 ∧
    ¬ ((2 : Int) ≤ 1) := by
  refine ⟨?_, ?_, ?_, by decide⟩
  · simp +decide [chatProcess, optInclude, splitIntoChunks, effectiveBudget, splitlines,
      breakLine, processLine, processWord, splitWs, countTokens, tokenize, tokenCost,
      splitFold, joinSp, chatLoop, calculateReservedTokens, substAll, lceHolder,
      extractLastChunkEnd, tailTake]
  · simp +decide [splitIntoChunks, effectiveBudget, splitlines, breakLine, processLine,
      processWord, splitWs, countTokens, tokenize, tokenCost, splitFold, joinSp]
  · simp +decide [tailBefore, extractLastChunkEnd, splitWs, tailTake, joinSp, countTokens,
      tokenize, tokenCost]

/-- Claim C2, amended: the continuity tail is always bounded by the fixed
default of 50 tokens — `options.last_chunk_token_count` is accepted but
never read, so the bound is not caller-configurable — and the tail is
empty at pipeline start. -/
theorem c2_amended :
    (∀ (model : Nat → List Char → List Char → List Char) (prompts : Prompts)
      (inc : Bool) (chunks : List (List Char)) (i : Nat),
      (countTokens (tailBefore model prompts inc chunks i) : Int) ≤ 50) ∧
    (∀ (model : Nat → List Char → List Char → List Char) (prompts : Prompts)
      (inc : Bool) (chunks : List (List Char)),
      tailBefore model prompts inc chunks 0 = []) ∧
    (∀ (mt cs : Int) (model : Nat → List Char → List Char → List Char)
      (ctx : List Char) (prompts : Prompts) (inc : Bool) (a b : Int),
      chatProcess mt cs model ctx prompts (some ⟨inc, a⟩) =
        chatProcess mt cs model ctx prompts (some ⟨inc, b⟩)) :=
  ⟨fun model prompts inc chunks i => tailBefore_le_fifty model prompts inc chunks i,
   fun _ _ _ _ => rfl,
   fun _ _ _ _ _ _ _ _ => rfl⟩

/-- Claim C3, counterexample: a response payload whose `choices` (resp.
`data`) key is present but holds an empty list makes the extraction raise
`IndexError` instead of degrading — so not every malformed payload is
tolerated. -/
theorem c3_counterexample :
    extractChatContent (.vObj [("choices", .vList [])]) = .error "IndexError" ∧
    extractEmbedding (.vObj [("data", .vList [])]) = .error "IndexError" :=
  ⟨rfl, rfl⟩

/-- Claim C3, amended: a missing `choices`/`data` key, a missing `message`
or `content` field, or a missing `embedding` field degrades to the empty
string (chat) or the empty vector (embeddings); but a payload whose
`choices`/`data` key holds an empty list raises `IndexError`. -/
theorem c3_amended :
    (∀ kvs, List.lookup "choices" kvs = none →
      extractChatContent (.vObj kvs) = .ok (.vStr "")) ∧
    (∀ kvs mkvs tl, List.lookup "choices" kvs = some (.vList (.vObj mkvs :: tl)) →
      List.lookup "message" mkvs = none →
      extractChatContent (.vObj kvs) = .ok (.vStr "")) ∧
    (∀ kvs mkvs ckvs tl, List.lookup "choices" kvs = some (.vList (.vObj mkvs :: tl)) →
      List.lookup "message" mkvs = some (.vObj ckvs) →
      List.lookup "content" ckvs = none →
      extractChatContent (.vObj kvs) = .ok (.vStr "")) ∧
    (∀ kvs, List.lookup "choices" kvs = some (.vList []) →
      extractChatContent (.vObj kvs) = .error "IndexError") ∧
    (∀ kvs, List.lookup "data" kvs = none →
      extractEmbedding (.vObj kvs) = .ok (.vList [])) ∧
    (∀ kvs ekvs tl, List.lookup "data" kvs = some (.vList (.vObj ekvs :: tl)) →
      List.lookup "embedding" ekvs = none →
      extractEmbedding (.vObj kvs) = .ok (.vList [])) ∧
    (∀ kvs, List.lookup "data" kvs = some (.vList []) →
      extractEmbedding (.vObj kvs) = .error "IndexError") := by
  refine ⟨?_, ?_, ?_, ?_, ?_, ?_, ?_⟩
  · intro kvs h
    simp [extractChatContent, pyGet, pyIndex0, h]
  · intro kvs mkvs tl h1 h2
    simp [extractChatContent, pyGet, pyIndex0, h1, h2]
  · intro kvs mkvs ckvs tl h1 h2 h3
    simp [extractChatContent, pyGet, pyIndex0, h1, h2, h3]
  · intro kvs h
    simp [extractChatContent, pyGet, pyIndex0, h]
  · intro kvs h
    simp [extractEmbedding, pyGet, pyIndex0, h]
  · intro kvs ekvs tl h1 h2
    simp [extractEmbedding, pyGet, pyIndex0, h1, h2]
  · intro kvs h
    simp [extractEmbedding, pyGet, pyIndex0, h]

/-- Witness for the amended C3: the empty payload dict degrades to the
empty string / empty vector. -/
theorem c3_amended_witness :
    extractChatContent (.vObj []) = .ok (.vStr "") ∧
    extractEmbedding (.vObj []) = .ok (.vList []) :=
  ⟨c3_amended.1 [] rfl, c3_amended.2.2.2.2.1 [] rfl⟩

/-- Claim C4: whenever `split` succeeds, every returned chunk's token
count is within the effective budget, except possibly chunks that consist
of a single whitespace-free (atomic) word whose own token count exceeds
the budget. -/
theorem c4_chunks_within_budget (chunkSize : Int) (context lastChunkEnd : List Char)
    (inc : Bool) (chunks : List (List Char))
    (h : splitIntoChunks chunkSize context lastChunkEnd inc = .ok chunks) :
    ∀ c ∈ chunks, (countTokens c : Int) ≤ effectiveBudget chunkSize lastChunkEnd inc ∨
      (effectiveBudget chunkSize lastChunkEnd inc < (countTokens c : Int) ∧
        c ≠ [] ∧ ∀ ch ∈ c, isSpaceChar ch = false) := by
  intro c hc
  have heff := splitIntoChunks_ok_eff h
  have hb := splitIntoChunks_bound h c hc
  rcases hb with hle | hgw
  · left
    have h2 : (countTokens c : Int) ≤
        (((effectiveBudget chunkSize lastChunkEnd inc).toNat : Nat) : Int) := by
      exact_mod_cast hle
    rw [Int.toNat_of_nonneg (by omega)] at h2
    exact h2
  · by_cases hle2 : (countTokens c : Int) ≤ effectiveBudget chunkSize lastChunkEnd inc
    · exact Or.inl hle2
    · exact Or.inr ⟨by omega, hgw⟩

/-- Witness for C4: splitting a small two-word context. -/
theorem c4_witness :
    (countTokens ("ab cd".toList) : Int) ≤ effectiveBudget 3 [] false ∨
      (effectiveBudget 3 [] false < (countTokens ("ab cd".toList) : Int) ∧
        "ab cd".toList ≠ [] ∧ ∀ ch ∈ "ab cd".toList, isSpaceChar ch = false) :=
  c4_chunks_within_budget 3 ("ab cd".toList) [] false ["ab cd".toList]
    (by simp +decide [splitIntoChunks, effectiveBudget, splitlines, breakLine, processLine,
      processWord, splitWs, countTokens, tokenize, tokenCost, splitFold, joinSp])
    ("ab cd".toList) (by simp)

/-- Claim C5: rejoining the chunks of `split(T, "", false)` with single
spaces reproduces `T` up to whitespace normalisation (collapsing every
maximal whitespace run, newlines included, to one space and trimming,
which `normWs` realises by splitting into words and rejoining); and
splitting the empty string yields the empty chunk sequence. -/
theorem c5_roundtrip (chunkSize : Int) (context : List Char) (chunks : List (List Char))
    (h : splitIntoChunks chunkSize context [] false = .ok chunks) :
    normWs (joinSp chunks) = normWs context ∧
    (0 < chunkSize → splitIntoChunks chunkSize [] [] false = .ok []) := by
  constructor
  · rw [normWs, normWs, splitWs_joinSp, splitIntoChunks_words h]
  · intro hcs
    rw [splitIntoChunks]
    rw [if_neg (by simp only [effectiveBudget, if_neg Bool.false_ne_true]; omega)]
    simp [splitlines]

/-- Witness for C5: a concrete split of a short context. -/
theorem c5_witness :
    normWs (joinSp ["a b".toList]) = normWs ("a b".toList) ∧
    ((0 : Int) < 5 → splitIntoChunks 5 [] [] false = .ok []) :=
  c5_roundtrip 5 ("a b".toList) ["a b".toList]
    (by simp +decide [splitIntoChunks, effectiveBudget, splitlines, breakLine, processLine,
      processWord, splitWs, countTokens, tokenize, tokenCost, splitFold, joinSp])

/-- Claim C6, counterexample: the floor formula is false of the code,
because `_calculate_chunk_size` evaluates
`int(max_tokens * (1 - response_ratio))` in binary64 floating point.
With `max_tokens = 5` and ratio `0.8` the code returns
`int(5 * 0.19999999999999996) = 0` while `floor(5 * (1 - 0.8)) = 1`; and
with the binary64 value actually received for `0.2` the code returns 4
while the exact `floor(5 * (1 - ratio))` over that value is 3. -/
theorem c6_counterexample :
    (calculateChunkSize 5 (some dbl08) = .ok 0 ∧ ⌊(5 : ℚ) * (1 - 8 / 10)⌋ = 1) ∧
    (calculateChunkSize 5 (some dbl02) = .ok 4 ∧ ⌊(5 : ℚ) * (1 - dbl02.toRat)⌋ = 3) ∧
    (0 : ℚ) < dbl08.toRat ∧ dbl08.toRat < 1 ∧
    (0 : ℚ) < dbl02.toRat ∧ dbl02.toRat < 1 ∧
    (0 : Int) ≠ 1 ∧ (4 : Int) ≠ 3 := by
  refine ⟨⟨rfl, by norm_num⟩, ⟨rfl, ?_⟩, ?_, ?_, ?_, ?_, by decide, by decide⟩
  · rw [Int.floor_eq_iff]
    constructor <;> (rw [dbl02_val]; norm_num)
  · rw [dbl08_val]; norm_num
  · rw [dbl08_val]; norm_num
  · rw [dbl02_val]; norm_num
  · rw [dbl02_val]; norm_num

/-- Claim C6, amended: `compute_budget` returns `max_tokens` unchanged
when `response_ratio` is absent, fails with `InvalidConfiguration` when
the float ratio is not strictly between 0 and 1, and otherwise returns
the binary64 evaluation `int(float(max_tokens) * (1 - response_ratio))`
truncated toward zero — which can differ from the exact
`floor(max_tokens * (1 - response_ratio))`; in particular
`compute_budget(200, 0.3) = 140` and `compute_budget(200, None) = 200`. -/
theorem c6_amended (maxTokens : Int) (r : Dyadic) :
    calculateChunkSize maxTokens none = .ok maxTokens ∧
    (0 < r.toRat → r.toRat < 1 →
      calculateChunkSize maxTokens (some r) =
        .ok (pyInt (fmul (intToDouble maxTokens) (fsub ⟨1, 0⟩ r)))) ∧
    (¬ (0 < r.toRat ∧ r.toRat < 1) →
      calculateChunkSize maxTokens (some r) =
        .error "response_ratio must be between 0 and 1.") ∧
    calculateChunkSize 200 (some dbl03) = .ok 140 ∧
    calculateChunkSize 200 none = .ok 200 := by
  have h0 : (Dyadic.mk 0 0).toRat = 0 := by rw [Dyadic.toRat]; norm_num
  have h1 : (Dyadic.mk 1 0).toRat = 1 := by rw [Dyadic.toRat]; norm_num
  have hcond : (dltB ⟨0, 0⟩ r && dltB r ⟨1, 0⟩) = true ↔ (0 < r.toRat ∧ r.toRat < 1) := by
    rw [Bool.and_eq_true, dltB_iff, dltB_iff, h0, h1]
  refine ⟨rfl, ?_, ?_, rfl, rfl⟩
  · intro ha hb
    rw [calculateChunkSize, if_pos (hcond.mpr ⟨ha, hb⟩)]
  · intro hng
    rw [calculateChunkSize, if_neg (fun hc => hng (hcond.mp hc))]

/-- Witness for the amended C6: the float-evaluated branch at the exactly
representable ratio 0.5. -/
theorem c6_amended_witness :
    calculateChunkSize 7 (some ⟨1, -1⟩) =
      .ok (pyInt (fmul (intToDouble 7) (fsub ⟨1, 0⟩ ⟨1, -1⟩))) :=
  (c6_amended 7 ⟨1, -1⟩).2.1 (by rw [Dyadic.toRat]; norm_num)
    (by rw [Dyadic.toRat]; norm_num)

/-- Claim C7: `reserve` computes
`max_tokens − (count_tokens(prompt) + count_tokens(chunk) + carried)`,
fails with `InsufficientBudget` exactly when that quantity is ≤ 0, returns
it otherwise; and it fails on a 1000-`a` prompt with a 1000-`b` chunk
against `max_tokens = 200`. -/
theorem c7_reserve (maxTokens : Int) (prompt chunk : List Char) (lastCount : Int) :
    (0 < maxTokens - ((countTokens prompt : Int) + countTokens chunk + lastCount) →
      calculateReservedTokens maxTokens prompt chunk lastCount =
        .ok (maxTokens - ((countTokens prompt : Int) + countTokens chunk + lastCount))) ∧
    (maxTokens - ((countTokens prompt : Int) + countTokens chunk + lastCount) ≤ 0 →
      calculateReservedTokens maxTokens prompt chunk lastCount =
        .error "Not enough tokens available for the response.") ∧
    calculateReservedTokens 200 (List.replicate 1000 'a') (List.replicate 1000 'b') 0 =
      .error "Not enough tokens available for the response." := by
  refine ⟨?_, ?_, ?_⟩
  · intro h
    rw [calculateReservedTokens_eq, if_neg (by omega)]
  · intro h
    rw [calculateReservedTokens_eq, if_pos h]
  · have ha : countTokens (List.replicate 1000 'a') = 200 := by
      rw [show List.replicate 1000 'a' = List.replicate (999 + 1) 'a' by norm_num,
        countTokens_replicate (by decide) 999]
      decide
    have hb : countTokens (List.replicate 1000 'b') = 200 := by
      rw [show List.replicate 1000 'b' = List.replicate (999 + 1) 'b' by norm_num,
        countTokens_replicate (by decide) 999]
      decide
    rw [calculateReservedTokens_eq, ha, hb, if_pos (by norm_num)]

/-- Witness for C7: a reservation that succeeds. -/
theorem c7_witness :
    calculateReservedTokens 5 [] [] 0 =
      .ok (5 - ((countTokens [] : Int) + countTokens [] + 0)) :=
  (c7_reserve 5 [] [] 0).1 (by rw [countTokens_nil]; norm_num)

/-- Claim C8: `extract_tail` equals the backward greedy walk described by
the spec — formalised as taking the longest suffix of the
whitespace-delimited words whose token estimate stays within the bound,
rejoined in original order with single spaces — and the spec's example
evaluates to `"some content."`. -/
theorem c8_extract_tail :
    (∀ (s : List Char) (bound : Int),
      extractLastChunkEnd s bound = specExtractTail s bound) ∧
    extractLastChunkEnd ("This is a test response. It has some content.".toList) 3 =
      "some content.".toList := by
  refine ⟨extractLastChunkEnd_eq_spec, ?_⟩
  simp +decide [extractLastChunkEnd, splitWs, tailTake, joinSp, countTokens, tokenize,
    tokenCost]

/-- Claim C9: if the reservation quantity computed for some chunk of a
chat run is ≤ 0, the whole `process` call fails with the
`InsufficientBudget` error (`"Not enough tokens available for the
response."`); the `.error` return carries no result items, so no partial
results from earlier completed chunks reach the caller. -/
theorem c9_insufficient_budget_aborts (mt cs : Int)
    (model : Nat → List Char → List Char → List Char) (ctx : List Char)
    (prompts : Prompts) (opts : Option ChatOptions) (chunks : List (List Char)) (i : Nat)
    (hsplit : splitIntoChunks cs ctx [] (optInclude opts) = .ok chunks)
    (hi : i < chunks.length)
    (hfail : reservedBefore mt model prompts (optInclude opts) chunks i ≤ 0) :
    chatProcess mt cs model ctx prompts opts =
      .error "Not enough tokens available for the response." := by
  have hPex : ∃ j, reservedBefore mt model prompts (optInclude opts) chunks j ≤ 0 ∧
      j < chunks.length := ⟨i, hfail, hi⟩
  obtain ⟨hP1, hP2⟩ := Nat.find_spec hPex
  have hmin := fun j (hj : j < Nat.find hPex) => Nat.find_min hPex hj
  obtain ⟨acc, hacc⟩ := chatLoop_march mt model prompts (optInclude opts) chunks
    (Nat.find hPex) (Nat.le_of_lt hP2)
    (fun j hj => by
      have := hmin j hj
      push_neg at this
      rcases lt_or_ge j chunks.length with hlt | hge
      · have := this
        by_contra hneg
        push_neg at hneg
        exact absurd ⟨hneg, hlt⟩ (hmin j hj)
      · omega)
  rw [List.drop_eq_getElem_cons hP2] at hacc
  have hgd : chunks.getD (Nat.find hPex) [] = chunks[Nat.find hPex] :=
    List.getD_eq_getElem chunks [] hP2
  have hfail0 : mt - ((countTokens (if Nat.find hPex = 0 then prompts.initial
      else substAll prompts.followUpTemplate
        (tailBefore model prompts (optInclude opts) chunks (Nat.find hPex))) : Int)
      + countTokens chunks[Nat.find hPex]
      + countTokens (tailBefore model prompts (optInclude opts) chunks (Nat.find hPex))) ≤ 0 := by
    have h0 := hP1
    rw [reservedBefore, promptBefore, hgd] at h0
    exact h0
  have herr : calculateReservedTokens mt
      (if Nat.find hPex = 0 then prompts.initial
       else substAll prompts.followUpTemplate
        (tailBefore model prompts (optInclude opts) chunks (Nat.find hPex)))
      chunks[Nat.find hPex]
      (countTokens (tailBefore model prompts (optInclude opts) chunks (Nat.find hPex))) =
      .error "Not enough tokens available for the response." := by
    rw [calculateReservedTokens_eq, if_pos hfail0]
  simp only [chatLoop, herr] at hacc
  have hstep : chatProcess mt cs model ctx prompts opts =
      match chatLoop mt model prompts (optInclude opts) chunks 0 [] 0 [] with
      | .error e => .error e
      | .ok results => .ok ⟨"success", results⟩ := by
    simp only [chatProcess]
    rw [hsplit]
  rw [hstep, hacc]

/-- Witness for C9: a run whose very first chunk exhausts the budget. -/
theorem c9_witness :
    chatProcess 1 10 (fun _ _ _ => ['r']) ("Hi!".toList) ⟨['p'], ['q']⟩ none =
      .error "Not enough tokens available for the response." :=
  c9_insufficient_budget_aborts 1 10 (fun _ _ _ => ['r']) ("Hi!".toList) ⟨['p'], ['q']⟩
    none ["Hi!".toList] 0
    (by simp +decide [splitIntoChunks, optInclude, effectiveBudget, splitlines, breakLine,
      processLine, processWord, splitWs, countTokens, tokenize, tokenCost, splitFold, joinSp])
    (by simp)
    (by simp +decide [reservedBefore, promptBefore, tailBefore, optInclude, countTokens,
      tokenize, tokenCost])

/-- Claim C10: with a positive effective budget and a non-empty context —
a single line whose only word is itself oversized — the splitter flushes
the still-empty pending chunk, so the returned sequence contains an
empty-string chunk. -/
theorem c10_empty_chunk :
    splitIntoChunks 1 ("abcdefghij".toList) [] false =
      .ok [[], "abcdefghij".toList] ∧
    ([] : List Char) ∈ [([] : List Char), "abcdefghij".toList] ∧
    "abcdefghij".toList ≠ [] ∧
    (0 : Int) < effectiveBudget 1 [] false := by
  refine ⟨?_, by simp, by simp, by norm_num [effectiveBudget]⟩
  simp +decide [splitIntoChunks, effectiveBudget, splitlines, breakLine, processLine,
    processWord, splitWs, countTokens, tokenize, tokenCost, splitFold, joinSp]

end AIProc
